import Mathlib

/-!
Verification of the tic-tac-toe negamax engine from `Application.cpp`.

The board is a `List Nat` of length 9 with cells in {0 = empty, 1 = X, 2 = O}.
`Negamax` is embedded with an explicit fuel parameter (the C++ recursion
consumes one empty cell per ply, so fuel 10 is always sufficient for a
9-cell board; fuel-independence is proved below).  A state-passing variant
`NegamaxStF` mirrors the imperative place/undo discipline on the whole
mutable game state.
-/

namespace ClassGame

/-- The board: `board[i] ∈ {0,1,2}`, index 0..8, stored as a list of length 9. -/
abbrev Board := List Nat

/-- Read `board[i]` (out-of-range reads yield 0; all real accesses are in range). -/
def cell (b : Board) (i : Nat) : Nat := b.getD i 0

/-- Write `board[i] = v`. -/
def setCell (b : Board) (i : Nat) (v : Nat) : Board := b.set i v

/-- The 8 winning triplets, in the order the C++ array `WINS` lists them. -/
def WINS : List (Nat × Nat × Nat) :=
  [(0,1,2), (3,4,5), (6,7,8),
   (0,3,6), (1,4,7), (2,5,8),
   (0,4,8), (2,4,6)]

/-- Preferred move order (center, corners, edges), the C++ array `ORDER`. -/
def ORDER : List Nat := [4, 0, 2, 6, 8, 1, 3, 5, 7]

/-- Value a single triplet contributes in `CheckWinnerRaw`:
the common nonzero cell value, or 0 when the triplet is not complete. -/
def lineWinner (b : Board) (l : Nat × Nat × Nat) : Nat :=
  if cell b l.1 ≠ 0 ∧ cell b l.1 = cell b l.2.1 ∧ cell b l.2.1 = cell b l.2.2
  then cell b l.1 else 0

/-- The scan of `CheckWinnerRaw` over (a suffix of) the `WINS` table:
returns the value of the first complete triplet, else 0. -/
def checkWinnerAux (b : Board) : List (Nat × Nat × Nat) → Nat
  | [] => 0
  | l :: ls => if lineWinner b l ≠ 0 then lineWinner b l else checkWinnerAux b ls

/-- `CheckWinnerRaw()`: 1 or 2 for the first complete triplet's owner, else 0. -/
def CheckWinnerRaw (b : Board) : Nat := checkWinnerAux b WINS

/-- `CheckWinnerSigned()`: +1 when X has three in a row, -1 for O, else 0. -/
def CheckWinnerSigned (b : Board) : Int :=
  if CheckWinnerRaw b = 1 then 1 else if CheckWinnerRaw b = 2 then -1 else 0

/-- `BoardFull()`: true when no cell is 0. -/
def BoardFull (b : Board) : Bool := b.all (fun v => v != 0)

/-- `std::numeric_limits<int>::min()`, the initial value of `best`. -/
def intMin : Int := -2147483648

/-- The move loop inside `Negamax`: iterate the given cell list, skip occupied
cells, place the side's piece, evaluate `-f` on the child, undo (implicit in
the functional embedding), keep the maximum, and return early as soon as the
running best reaches +1. -/
def negaLoop (f : Board → Int → Int) (b : Board) (side : Int) :
    List Nat → Int → Int
  | [], best => best
  | idx :: rest, best =>
    if cell b idx ≠ 0 then negaLoop f b side rest best
    else
      let val : Int := - f (setCell b idx (if side = 1 then 1 else 2)) (-side)
      let best' := if best < val then val else best
      if best' = 1 then best' else negaLoop f b side rest best'

/-- `Negamax(side)` with explicit fuel: terminal positions score
±1 by `CheckWinnerSigned`, full boards 0; otherwise the move loop over
`ORDER`.  Each ply consumes one unit of fuel; the C++ recursion corresponds
to any fuel larger than the number of empty cells (see fuel stability). -/
def NegamaxF : Nat → Board → Int → Int
  | 0, _, _ => 0
  | fuel+1, b, side =>
    if CheckWinnerSigned b ≠ 0 then
      (if CheckWinnerSigned b = side then 1 else -1)
    else if BoardFull b then 0
    else negaLoop (NegamaxF fuel) b side ORDER intMin

/-- `Negamax(side)` on a 9-cell board: fuel 10 always suffices. -/
def Negamax (b : Board) (side : Int) : Int := NegamaxF 10 b side

/-- Modelled from the spec: the exhaustive move loop that visits cells in the
given order with no early exit, used by the order-free reference negamax. -/
def negaLoopPlain (f : Board → Int → Int) (b : Board) (side : Int) :
    List Nat → Int → Int
  | [], best => best
  | idx :: rest, best =>
    if cell b idx ≠ 0 then negaLoopPlain f b side rest best
    else
      let val : Int := - f (setCell b idx (if side = 1 then 1 else 2)) (-side)
      negaLoopPlain f b side rest (if best < val then val else best)

/-- Modelled from the spec: an exhaustive negamax that visits all empty cells
in natural index order (0..8) with no early exit — the reference against
which the ordered, pruned `NegamaxF` is compared. -/
def NegamaxPlainF : Nat → Board → Int → Int
  | 0, _, _ => 0
  | fuel+1, b, side =>
    if CheckWinnerSigned b ≠ 0 then
      (if CheckWinnerSigned b = side then 1 else -1)
    else if BoardFull b then 0
    else negaLoopPlain (NegamaxPlainF fuel) b side (List.range 9) intMin

/-- The exhaustive reference negamax on a 9-cell board. -/
def NegamaxPlain (b : Board) (side : Int) : Int := NegamaxPlainF 10 b side

/-- The score `AIMove_Negamax` assigns to placing O at `idx`:
place O, evaluate `-Negamax(+1)` (X to move next), undo. -/
def aiVal (b : Board) (idx : Nat) : Int := - Negamax (setCell b idx 2) 1

/-- The candidate loop of `AIMove_Negamax`: iterate `ORDER`, skip occupied
cells, keep the strictly-best `(bestVal, bestMove)`, and break as soon as a
winning reply (value +1) is recorded. -/
def aiLoop (b : Board) : List Nat → Int → Int → Int × Int
  | [], bestVal, bestMove => (bestVal, bestMove)
  | idx :: rest, bestVal, bestMove =>
    if cell b idx ≠ 0 then aiLoop b rest bestVal bestMove
    else
      if bestVal < aiVal b idx then
        if aiVal b idx = 1 then (aiVal b idx, (idx : Int))
        else aiLoop b rest (aiVal b idx) (idx : Int)
      else aiLoop b rest bestVal bestMove

/-- The fallback scan of `AIMove_Negamax`: the first empty cell, or -1. -/
def firstEmpty (b : Board) : Int :=
  match (List.range 9).find? (fun i => cell b i == 0) with
  | some i => (i : Int)
  | none => -1

/-- The move index `AIMove_Negamax` ends up playing: the loop's best move,
or the first-empty fallback when the loop recorded no candidate. -/
def aiBestMove (b : Board) : Int :=
  let r := aiLoop b ORDER intMin (-1)
  if r.2 = -1 then firstEmpty b else r.2

/-- The mutable engine state: board, whose turn, game-over flag, winner. -/
structure GameState where
  board : Board
  currentPlayer : Nat
  gameOver : Bool
  winner : Nat
deriving DecidableEq

/-- `AIMove_Negamax()`: return immediately when the game is over; otherwise
play O on the selected cell, recompute winner and game-over, and hand the
turn back to the human when the game continues. -/
def AIMove_Negamax (s : GameState) : GameState :=
  if s.gameOver then s
  else
    let bestMove := aiBestMove s.board
    let board' := if bestMove ≠ -1 then setCell s.board bestMove.toNat 2 else s.board
    let w := CheckWinnerRaw board'
    let over := (w != 0) || BoardFull board'
    { board := board',
      currentPlayer := if over then s.currentPlayer else 1,
      gameOver := over,
      winner := w }

/-- The outcome type of the spec's `checkOutcome`. -/
inductive Outcome where
  | InProgress : Outcome
  | Draw : Outcome
  | Win : Nat → Outcome
deriving DecidableEq

/-- The outcome as computed at the C++ call sites:
`winner = CheckWinnerRaw(); gameOver = (winner != 0) || BoardFull();`
with a zero winner on a full board displayed as a draw. -/
def checkOutcome (b : Board) : Outcome :=
  if CheckWinnerRaw b ≠ 0 then Outcome.Win (CheckWinnerRaw b)
  else if BoardFull b then Outcome.Draw
  else Outcome.InProgress

/-- One triplet fully matches and is non-empty (spec-side predicate). -/
def lineMatch (b : Board) (l : Nat × Nat × Nat) : Bool :=
  cell b l.1 != 0 && cell b l.1 == cell b l.2.1 && cell b l.2.1 == cell b l.2.2

/-- Modelled from the spec: "scans the 8 winning triplets; returns a win for
the first fully-matching non-empty triplet found, else Draw if no empty
cells remain, else InProgress". -/
def checkOutcomeSpec (b : Board) : Outcome :=
  match WINS.find? (lineMatch b) with
  | some l => Outcome.Win (cell b l.1)
  | none => if b.all (fun v => v != 0) then Outcome.Draw else Outcome.InProgress

/-- A player has a complete triplet somewhere on the board. -/
def winsFor (b : Board) (p : Nat) : Bool :=
  WINS.any (fun l => cell b l.1 == p && cell b l.2.1 == p && cell b l.2.2 == p)

/-- Boards reachable from the empty board by legal alternating play:
X (player 1) starts; a move is legal only while the game is not over
(no winner, board not full) and targets an empty in-range cell; play then
passes to the other player exactly as `currentPlayer` toggles in the code. -/
inductive Reachable : Board → Nat → Prop
  | start : Reachable (List.replicate 9 0) 1
  | step {b : Board} {p idx : Nat} :
      Reachable b p → CheckWinnerRaw b = 0 → BoardFull b = false →
      idx < 9 → cell b idx = 0 →
      Reachable (setCell b idx p) (if p = 1 then 2 else 1)

/-- Swap the two players' pieces in one cell (1 ↔ 2, others fixed). -/
def swapCell (v : Nat) : Nat := if v = 1 then 2 else if v = 2 then 1 else v

/-- Swap the two players' pieces everywhere on the board. -/
def swapBoard (b : Board) : Board := b.map swapCell

/-- The move loop of `Negamax`, threading the whole mutable state: place the
piece, recurse on the mutated state, undo by writing 0 back, as the C++
code does. -/
def negaLoopSt (f : GameState → Int → Int × GameState) (side : Int) :
    List Nat → Int → GameState → Int × GameState
  | [], best, s => (best, s)
  | idx :: rest, best, s =>
    if cell s.board idx ≠ 0 then negaLoopSt f side rest best s
    else
      let s1 := { s with board := setCell s.board idx (if side = 1 then 1 else 2) }
      let r := f s1 (-side)
      let s2 := { r.2 with board := setCell r.2.board idx 0 }
      let val := - r.1
      let best' := if best < val then val else best
      if best' = 1 then (best', s2) else negaLoopSt f side rest best' s2

/-- `Negamax(side)` in state-passing form: the same computation as
`NegamaxF`, but every placement mutates the threaded state and every undo
writes the cell back, exactly as the imperative code does. -/
def NegamaxStF : Nat → GameState → Int → Int × GameState
  | 0, s, _ => (0, s)
  | fuel+1, s, side =>
    if CheckWinnerSigned s.board ≠ 0 then
      ((if CheckWinnerSigned s.board = side then 1 else -1), s)
    else if BoardFull s.board then (0, s)
    else negaLoopSt (NegamaxStF fuel) side ORDER intMin s

/-- The state-passing `Negamax(side)` on a 9-cell board (fuel 10 suffices). -/
def NegamaxSt (s : GameState) (side : Int) : Int × GameState := NegamaxStF 10 s side

/-! ### Basic lemmas about cells and boards -/

theorem length_setCell (b : Board) (i v : Nat) : (setCell b i v).length = b.length :=
  List.length_set b i v

theorem cell_eq_getElem (b : Board) (i : Nat) (h : i < b.length) : cell b i = b[i] := by
  simp [cell, List.getD_eq_getElem?_getD, List.getElem?_eq_getElem h]

theorem cell_setCell (b : Board) (i w v : Nat) :
    cell (setCell b i v) w = if i = w ∧ i < b.length then v else cell b w := by
  simp only [cell, setCell, List.getD_eq_getElem?_getD, List.getElem?_set]
  by_cases hiw : i = w
  · subst hiw
    by_cases hlen : i < b.length
    · simp [hlen]
    · simp [hlen, List.getElem?_eq_none (Nat.le_of_not_lt hlen)]
  · simp [hiw]

theorem cell_setCell_self (b : Board) (i v : Nat) (h : i < b.length) :
    cell (setCell b i v) i = v := by
  rw [cell_setCell]; simp [h]

theorem cell_setCell_ne (b : Board) (i w v : Nat) (h : i ≠ w) :
    cell (setCell b i v) w = cell b w := by
  rw [cell_setCell]; simp [h]

theorem setCell_zero_self : ∀ (b : Board) (i : Nat), cell b i = 0 → setCell b i 0 = b := by
  intro b
  induction b with
  | nil => intro i _; rfl
  | cons a bs ih =>
    intro i hc
    cases i with
    | zero => simp [cell] at hc; simp [setCell, hc]
    | succ j =>
      simp only [cell, List.getD_cons_succ] at hc
      have := ih j hc
      simp only [setCell, List.set_cons_succ] at this ⊢
      rw [this]

theorem ORDER_mem (i : Nat) (h : i < 9) : i ∈ ORDER := by
  interval_cases i <;> decide

theorem ORDER_lt : ∀ i ∈ ORDER, i < 9 := by decide

theorem boardFull_false_iff (b : Board) :
    BoardFull b = false ↔ ∃ i, i < b.length ∧ cell b i = 0 := by
  constructor
  · intro h
    rcases List.all_eq_false.mp h with ⟨v, hv, hne⟩
    rcases List.mem_iff_getElem.mp hv with ⟨i, hi, hget⟩
    exact ⟨i, hi, by rw [cell_eq_getElem b i hi, hget]; simpa using hne⟩
  · rintro ⟨i, hi, hc⟩
    refine List.all_eq_false.mpr ⟨0, ?_, by decide⟩
    rw [cell_eq_getElem b i hi] at hc
    exact hc ▸ List.getElem_mem hi

theorem count_pos_of_empty_cell (b : Board) (i : Nat) (hi : i < b.length)
    (hc : cell b i = 0) : 0 < b.count 0 := by
  rw [cell_eq_getElem b i hi] at hc
  exact List.count_pos_iff.mpr (hc ▸ List.getElem_mem hi)

theorem count_setCell_nonzero (b : Board) (i v : Nat) (hi : i < b.length)
    (hc : cell b i = 0) (hv : v ≠ 0) :
    (setCell b i v).count 0 = b.count 0 - 1 := by
  rw [cell_eq_getElem b i hi] at hc
  rw [setCell, List.count_set v 0 b i hi]
  simp [hc, hv]

/-! ### Zeta-reduced equations for the loop bodies -/

theorem negaLoop_nil (f : Board → Int → Int) (b : Board) (side : Int) (best : Int) :
    negaLoop f b side [] best = best := rfl

theorem negaLoop_skip (f : Board → Int → Int) (b : Board) (side : Int)
    {idx : Nat} (rest : List Nat) (best : Int) (h : cell b idx ≠ 0) :
    negaLoop f b side (idx :: rest) best = negaLoop f b side rest best := by
  rw [negaLoop, if_pos h]

theorem negaLoop_play (f : Board → Int → Int) (b : Board) (side : Int)
    {idx : Nat} (rest : List Nat) (best : Int) (h : cell b idx = 0) :
    negaLoop f b side (idx :: rest) best =
      (if (if best < - f (setCell b idx (if side = 1 then 1 else 2)) (-side)
           then - f (setCell b idx (if side = 1 then 1 else 2)) (-side) else best) = 1
       then (if best < - f (setCell b idx (if side = 1 then 1 else 2)) (-side)
             then - f (setCell b idx (if side = 1 then 1 else 2)) (-side) else best)
       else negaLoop f b side rest
         (if best < - f (setCell b idx (if side = 1 then 1 else 2)) (-side)
          then - f (setCell b idx (if side = 1 then 1 else 2)) (-side) else best)) := by
  rw [negaLoop, if_neg (fun hne => hne h)]

theorem negaLoopPlain_nil (f : Board → Int → Int) (b : Board) (side : Int) (best : Int) :
    negaLoopPlain f b side [] best = best := rfl

theorem negaLoopPlain_skip (f : Board → Int → Int) (b : Board) (side : Int)
    {idx : Nat} (rest : List Nat) (best : Int) (h : cell b idx ≠ 0) :
    negaLoopPlain f b side (idx :: rest) best = negaLoopPlain f b side rest best := by
  rw [negaLoopPlain, if_pos h]

theorem negaLoopPlain_play (f : Board → Int → Int) (b : Board) (side : Int)
    {idx : Nat} (rest : List Nat) (best : Int) (h : cell b idx = 0) :
    negaLoopPlain f b side (idx :: rest) best =
      negaLoopPlain f b side rest
        (if best < - f (setCell b idx (if side = 1 then 1 else 2)) (-side)
         then - f (setCell b idx (if side = 1 then 1 else 2)) (-side) else best) := by
  rw [negaLoopPlain, if_neg (fun hne => hne h)]

theorem placed_ne_zero (side : Int) : (if side = 1 then 1 else 2) ≠ 0 := by
  split <;> decide

/-! ### The value range of the negamax search -/

/-- The honest outcome space of the search: every value is -1, 0 or +1. -/
def inRange (v : Int) : Prop := v = -1 ∨ v = 0 ∨ v = 1

theorem inRange_neg {v : Int} (h : inRange v) : inRange (-v) := by
  rcases h with h | h | h <;> subst h <;> simp [inRange]

theorem intMin_lt_of_inRange {v : Int} (h : inRange v) : intMin < v := by
  rcases h with h | h | h <;> subst h <;> decide

theorem inRange_le_one {v : Int} (h : inRange v) : v ≤ 1 := by
  rcases h with h | h | h <;> subst h <;> decide

theorem neg_one_le_of_inRange {v : Int} (h : inRange v) : -1 ≤ v := by
  rcases h with h | h | h <;> subst h <;> decide

theorem negaLoop_range (f : Board → Int → Int) (b : Board) (side : Int)
    (hf : ∀ idx ∈ ORDER, inRange (f (setCell b idx (if side = 1 then 1 else 2)) (-side))) :
    ∀ l, (∀ i ∈ l, i ∈ ORDER) → ∀ best : Int,
      ((best = intMin ∧ ∃ idx ∈ l, cell b idx = 0) ∨ inRange best) →
      inRange (negaLoop f b side l best) := by
  intro l
  induction l with
  | nil =>
    intro _ best hpre
    rcases hpre with ⟨_, ⟨_, hmem, _⟩⟩ | hbest
    · exact absurd hmem (List.not_mem_nil _)
    · simpa [negaLoop] using hbest
  | cons idx rest ih =>
    intro hsub best hpre
    have hidx : idx ∈ ORDER := hsub idx (List.mem_cons_self idx rest)
    have hrest : ∀ i ∈ rest, i ∈ ORDER := fun i hi => hsub i (List.mem_cons_of_mem idx hi)
    by_cases hocc : cell b idx = 0
    · rw [negaLoop_play f b side rest best hocc]
      have hval : inRange (- f (setCell b idx (if side = 1 then 1 else 2)) (-side)) :=
        inRange_neg (hf idx hidx)
      set val := - f (setCell b idx (if side = 1 then 1 else 2)) (-side) with hvaldef
      have hbest' : inRange (if best < val then val else best) := by
        rcases hpre with ⟨hmin, _⟩ | hbest
        · rw [hmin, if_pos (intMin_lt_of_inRange hval)]; exact hval
        · by_cases hlt : best < val
          · rw [if_pos hlt]; exact hval
          · rw [if_neg hlt]; exact hbest
      set best2 := if best < val then val else best with hbest2
      by_cases h2 : best2 = 1
      · rw [if_pos h2, h2]; exact Or.inr (Or.inr rfl)
      · rw [if_neg h2]; exact ih hrest best2 (Or.inr hbest')
    · rw [negaLoop_skip f b side rest best hocc]
      apply ih hrest
      rcases hpre with ⟨hmin, ⟨j, hj, hcj⟩⟩ | hbest
      · rcases List.mem_cons.mp hj with rfl | hj'
        · exact absurd hcj hocc
        · exact Or.inl ⟨hmin, j, hj', hcj⟩
      · exact Or.inr hbest

theorem negamaxF_range (fuel : Nat) : ∀ (b : Board) (side : Int), b.length = 9 →
    inRange (NegamaxF fuel b side) := by
  induction fuel with
  | zero => intro b side _; exact Or.inr (Or.inl rfl)
  | succ n ih =>
    intro b side hlen
    rw [NegamaxF]
    by_cases hsw : CheckWinnerSigned b ≠ 0
    · rw [if_pos hsw]
      split
      · exact Or.inr (Or.inr rfl)
      · exact Or.inl rfl
    · rw [if_neg hsw]
      by_cases hfull : BoardFull b
      · rw [if_pos hfull]; exact Or.inr (Or.inl rfl)
      · rw [if_neg hfull]
        apply negaLoop_range
        · intro idx _
          exact ih _ (-side) (by rw [length_setCell, hlen])
        · intro i hi; exact hi
        · left
          refine ⟨rfl, ?_⟩
          rcases (boardFull_false_iff b).mp (Bool.not_eq_true _ ▸ eq_false_of_ne_true hfull) with
            ⟨i, hi, hc⟩
          exact ⟨i, ORDER_mem i (hlen ▸ hi), hc⟩

theorem negamax_range (b : Board) (side : Int) (hlen : b.length = 9) :
    inRange (Negamax b side) := negamaxF_range 10 b side hlen

/-! ### Fuel stability: the recursion bottoms out below the fuel bound -/

theorem negaLoop_congr (f g : Board → Int → Int) (b : Board) (side : Int)
    (h : ∀ idx ∈ ORDER, cell b idx = 0 →
      f (setCell b idx (if side = 1 then 1 else 2)) (-side)
        = g (setCell b idx (if side = 1 then 1 else 2)) (-side)) :
    ∀ l, (∀ i ∈ l, i ∈ ORDER) → ∀ best : Int,
      negaLoop f b side l best = negaLoop g b side l best := by
  intro l
  induction l with
  | nil => intro _ best; rfl
  | cons idx rest ih =>
    intro hsub best
    have hidx : idx ∈ ORDER := hsub idx (List.mem_cons_self idx rest)
    have hrest : ∀ i ∈ rest, i ∈ ORDER := fun i hi => hsub i (List.mem_cons_of_mem idx hi)
    by_cases hocc : cell b idx = 0
    · rw [negaLoop_play f b side rest best hocc, negaLoop_play g b side rest best hocc,
        h idx hidx hocc]
      set val := - g (setCell b idx (if side = 1 then 1 else 2)) (-side) with hv
      set best2 := if best < val then val else best with hb2
      by_cases h2 : best2 = 1
      · rw [if_pos h2, if_pos h2]
      · rw [if_neg h2, if_neg h2]; exact ih hrest best2
    · rw [negaLoop_skip f b side rest best hocc, negaLoop_skip g b side rest best hocc]
      exact ih hrest best

theorem negamaxF_fuel_stable :
    ∀ (f1 : Nat) (b : Board) (f2 : Nat) (side : Int), b.length = 9 →
      b.count 0 + 1 ≤ f1 → b.count 0 + 1 ≤ f2 →
      NegamaxF f1 b side = NegamaxF f2 b side := by
  intro f1
  induction f1 with
  | zero => intro b f2 side _ h1 _; omega
  | succ n ih =>
    intro b f2 side hlen h1 h2
    cases f2 with
    | zero => omega
    | succ m =>
      rw [NegamaxF, NegamaxF]
      by_cases hsw : CheckWinnerSigned b ≠ 0
      · rw [if_pos hsw, if_pos hsw]
      · rw [if_neg hsw, if_neg hsw]
        by_cases hfull : BoardFull b
        · rw [if_pos hfull, if_pos hfull]
        · rw [if_neg hfull, if_neg hfull]
          apply negaLoop_congr
          · intro idx hidx hc
            have hlt : idx < b.length := hlen ▸ ORDER_lt idx hidx
            have hpos : 0 < b.count 0 := count_pos_of_empty_cell b idx hlt hc
            have hcnt : (setCell b idx (if side = 1 then 1 else 2)).count 0 = b.count 0 - 1 :=
              count_setCell_nonzero b idx _ hlt hc (placed_ne_zero side)
            exact ih _ m (-side) (by rw [length_setCell, hlen]) (by omega) (by omega)
          · intro i hi; exact hi

theorem count_zero_le_nine (b : Board) (hlen : b.length = 9) : b.count 0 ≤ 9 :=
  hlen ▸ List.count_le_length 0 b

/-! ### The pruned, ordered loop computes the plain exhaustive maximum -/

theorem if_lt_max (a b : Int) : (if a < b then b else a) = max a b := by
  rcases le_or_lt b a with h | h
  · rw [if_neg (not_lt.mpr h), max_eq_left h]
  · rw [if_pos h, max_eq_right h.le]

theorem negaLoopPlain_eq_foldl (f : Board → Int → Int) (b : Board) (side : Int) :
    ∀ (l : List Nat) (best : Int),
      negaLoopPlain f b side l best =
        l.foldl (fun acc idx => if cell b idx ≠ 0 then acc
          else max acc (- f (setCell b idx (if side = 1 then 1 else 2)) (-side))) best := by
  intro l
  induction l with
  | nil => intro best; rfl
  | cons idx rest ih =>
    intro best
    by_cases hocc : cell b idx = 0
    · rw [negaLoopPlain_play f b side rest best hocc, ih, List.foldl_cons, if_lt_max]
      congr 1
      simp [hocc]
    · rw [negaLoopPlain_skip f b side rest best hocc, List.foldl_cons, ih, if_pos hocc]

theorem negaLoopPlain_perm (f : Board → Int → Int) (b : Board) (side : Int)
    {l₁ l₂ : List Nat} (hp : l₁.Perm l₂) (best : Int) :
    negaLoopPlain f b side l₁ best = negaLoopPlain f b side l₂ best := by
  rw [negaLoopPlain_eq_foldl, negaLoopPlain_eq_foldl]
  refine @List.Perm.foldl_eq _ _ _ _ _ ⟨fun acc i j => ?_⟩ hp best
  by_cases hi : cell b i ≠ 0 <;> by_cases hj : cell b j ≠ 0 <;>
    simp [hi, hj, Max.right_comm]

theorem negaLoopPlain_ge (f : Board → Int → Int) (b : Board) (side : Int) :
    ∀ (l : List Nat) (best : Int), best ≤ negaLoopPlain f b side l best := by
  intro l
  induction l with
  | nil => intro best; exact le_refl best
  | cons idx rest ih =>
    intro best
    by_cases hocc : cell b idx = 0
    · rw [negaLoopPlain_play f b side rest best hocc]
      refine le_trans ?_ (ih _)
      rw [if_lt_max]; exact le_max_left _ _
    · rw [negaLoopPlain_skip f b side rest best hocc]; exact ih best

theorem negaLoopPlain_le_one (f : Board → Int → Int) (b : Board) (side : Int) :
    ∀ (l : List Nat) (best : Int), best ≤ 1 →
      (∀ idx ∈ l, cell b idx = 0 →
        - f (setCell b idx (if side = 1 then 1 else 2)) (-side) ≤ 1) →
      negaLoopPlain f b side l best ≤ 1 := by
  intro l
  induction l with
  | nil => intro best hb _; exact hb
  | cons idx rest ih =>
    intro best hb hv
    have hrest : ∀ idx ∈ rest, cell b idx = 0 →
        - f (setCell b idx (if side = 1 then 1 else 2)) (-side) ≤ 1 :=
      fun i hi => hv i (List.mem_cons_of_mem idx hi)
    by_cases hocc : cell b idx = 0
    · rw [negaLoopPlain_play f b side rest best hocc]
      refine ih _ ?_ hrest
      rw [if_lt_max]
      exact max_le hb (hv idx (List.mem_cons_self idx rest) hocc)
    · rw [negaLoopPlain_skip f b side rest best hocc]; exact ih best hb hrest

theorem negaLoop_eq_negaLoopPlain (f : Board → Int → Int) (b : Board) (side : Int) :
    ∀ (l : List Nat) (best : Int),
      (∀ idx ∈ l, cell b idx = 0 →
        - f (setCell b idx (if side = 1 then 1 else 2)) (-side) ≤ 1) →
      negaLoop f b side l best = negaLoopPlain f b side l best := by
  intro l
  induction l with
  | nil => intro best _; rfl
  | cons idx rest ih =>
    intro best hv
    have hrest : ∀ idx ∈ rest, cell b idx = 0 →
        - f (setCell b idx (if side = 1 then 1 else 2)) (-side) ≤ 1 :=
      fun i hi => hv i (List.mem_cons_of_mem idx hi)
    by_cases hocc : cell b idx = 0
    · rw [negaLoop_play f b side rest best hocc, negaLoopPlain_play f b side rest best hocc]
      set val := - f (setCell b idx (if side = 1 then 1 else 2)) (-side) with hvv
      set best2 := if best < val then val else best with hb2
      by_cases h2 : best2 = 1
      · rw [if_pos h2]
        have hge : best2 ≤ negaLoopPlain f b side rest best2 := negaLoopPlain_ge f b side rest best2
        have hle : negaLoopPlain f b side rest best2 ≤ 1 :=
          negaLoopPlain_le_one f b side rest best2 (le_of_eq h2) hrest
        omega
      · rw [if_neg h2]; exact ih best2 hrest
    · rw [negaLoop_skip f b side rest best hocc, negaLoopPlain_skip f b side rest best hocc]
      exact ih best hrest

theorem negaLoopPlain_congr (f g : Board → Int → Int) (b : Board) (side : Int)
    (h : ∀ idx, cell b idx = 0 →
      f (setCell b idx (if side = 1 then 1 else 2)) (-side)
        = g (setCell b idx (if side = 1 then 1 else 2)) (-side)) :
    ∀ (l : List Nat) (best : Int),
      negaLoopPlain f b side l best = negaLoopPlain g b side l best := by
  intro l
  induction l with
  | nil => intro best; rfl
  | cons idx rest ih =>
    intro best
    by_cases hocc : cell b idx = 0
    · rw [negaLoopPlain_play f b side rest best hocc,
        negaLoopPlain_play g b side rest best hocc, h idx hocc]
      exact ih _
    · rw [negaLoopPlain_skip f b side rest best hocc,
        negaLoopPlain_skip g b side rest best hocc]
      exact ih best

theorem ORDER_perm_range : ORDER.Perm (List.range 9) := by decide

theorem negamaxF_eq_plainF :
    ∀ (fuel : Nat) (b : Board) (side : Int), b.length = 9 →
      NegamaxF fuel b side = NegamaxPlainF fuel b side := by
  intro fuel
  induction fuel with
  | zero => intro b side _; rfl
  | succ n ih =>
    intro b side hlen
    rw [NegamaxF, NegamaxPlainF]
    by_cases hsw : CheckWinnerSigned b ≠ 0
    · rw [if_pos hsw, if_pos hsw]
    · rw [if_neg hsw, if_neg hsw]
      by_cases hfull : BoardFull b
      · rw [if_pos hfull, if_pos hfull]
      · rw [if_neg hfull, if_neg hfull]
        have hchildlen : ∀ (idx : Nat) (v : Nat), (setCell b idx v).length = 9 := by
          intro idx v; rw [length_setCell, hlen]
        rw [negaLoop_eq_negaLoopPlain (NegamaxF n) b side ORDER intMin ?_]
        · rw [negaLoopPlain_congr (NegamaxF n) (NegamaxPlainF n) b side ?_ ORDER intMin]
          · exact negaLoopPlain_perm (NegamaxPlainF n) b side ORDER_perm_range intMin
          · intro idx _
            exact ih _ (-side) (hchildlen idx _)
        · intro idx _ _
          have hr : inRange (NegamaxF n (setCell b idx (if side = 1 then 1 else 2)) (-side)) :=
            negamaxF_range n _ (-side) (hchildlen idx _)
          have := neg_one_le_of_inRange hr
          omega

theorem negamax_eq_negamaxPlain (b : Board) (side : Int) (hlen : b.length = 9) :
    Negamax b side = NegamaxPlain b side := negamaxF_eq_plainF 10 b side hlen

/-! ### Properties of the AI candidate loop -/

theorem aiVal_le_one (b : Board) (idx : Nat) (hlen : b.length = 9) : aiVal b idx ≤ 1 := by
  have hr : inRange (Negamax (setCell b idx 2) 1) :=
    negamax_range _ 1 (by rw [length_setCell, hlen])
  have := neg_one_le_of_inRange hr
  unfold aiVal
  omega

theorem intMin_lt_aiVal (b : Board) (idx : Nat) (hlen : b.length = 9) : intMin < aiVal b idx := by
  have hr : inRange (Negamax (setCell b idx 2) 1) :=
    negamax_range _ 1 (by rw [length_setCell, hlen])
  have h1 := neg_one_le_of_inRange hr
  have h2 := inRange_le_one hr
  unfold aiVal intMin
  unfold intMin at *
  omega

theorem aiLoop_skip (b : Board) {idx : Nat} (rest : List Nat) (bv bm : Int)
    (h : cell b idx ≠ 0) : aiLoop b (idx :: rest) bv bm = aiLoop b rest bv bm := by
  rw [aiLoop, if_pos h]

theorem aiLoop_play (b : Board) {idx : Nat} (rest : List Nat) (bv bm : Int)
    (h : cell b idx = 0) :
    aiLoop b (idx :: rest) bv bm =
      (if bv < aiVal b idx then
        (if aiVal b idx = 1 then (aiVal b idx, (idx : Int))
         else aiLoop b rest (aiVal b idx) (idx : Int))
       else aiLoop b rest bv bm) := by
  rw [aiLoop, if_neg (fun hne => hne h)]

theorem aiLoop_fst_ge (b : Board) :
    ∀ (l : List Nat) (bv bm : Int), bv ≤ (aiLoop b l bv bm).1 := by
  intro l
  induction l with
  | nil => intro bv bm; exact le_refl bv
  | cons idx rest ih =>
    intro bv bm
    by_cases hocc : cell b idx = 0
    · rw [aiLoop_play b rest bv bm hocc]
      by_cases hlt : bv < aiVal b idx
      · rw [if_pos hlt]
        by_cases h1 : aiVal b idx = 1
        · rw [if_pos h1]; exact le_of_lt hlt
        · rw [if_neg h1]; exact le_trans (le_of_lt hlt) (ih _ _)
      · rw [if_neg hlt]; exact ih bv bm
    · rw [aiLoop_skip b rest bv bm hocc]; exact ih bv bm

theorem aiLoop_fst_dominates (b : Board) (hlen : b.length = 9) :
    ∀ (l : List Nat) (bv bm : Int) (idx : Nat), idx ∈ l → cell b idx = 0 →
      aiVal b idx ≤ (aiLoop b l bv bm).1 := by
  intro l
  induction l with
  | nil => intro bv bm idx hmem; exact absurd hmem (List.not_mem_nil idx)
  | cons j rest ih =>
    intro bv bm idx hmem hc
    by_cases hocc : cell b j = 0
    · rw [aiLoop_play b rest bv bm hocc]
      by_cases hlt : bv < aiVal b j
      · rw [if_pos hlt]
        by_cases h1 : aiVal b j = 1
        · rw [if_pos h1]
          simp only []
          rw [h1]
          exact aiVal_le_one b idx hlen
        · rw [if_neg h1]
          rcases List.mem_cons.mp hmem with rfl | hmem'
          · exact aiLoop_fst_ge b rest (aiVal b idx) (idx : Int)
          · exact ih _ _ idx hmem' hc
      · rw [if_neg hlt]
        rcases List.mem_cons.mp hmem with rfl | hmem'
        · exact le_trans (not_lt.mp hlt) (aiLoop_fst_ge b rest bv bm)
        · exact ih bv bm idx hmem' hc
    · rw [aiLoop_skip b rest bv bm hocc]
      rcases List.mem_cons.mp hmem with rfl | hmem'
      · exact absurd hc hocc
      · exact ih bv bm idx hmem' hc

theorem aiLoop_pairing (b : Board) (hlen : b.length = 9) :
    ∀ (l : List Nat) (bv bm : Int),
      (∀ i ∈ l, i < 9) →
      ((bv = intMin ∧ bm = -1) ∨
        (∃ j, j < 9 ∧ cell b j = 0 ∧ bm = (j : Int) ∧ bv = aiVal b j)) →
      (((aiLoop b l bv bm).1 = bv ∧ (aiLoop b l bv bm).2 = bm ∧ ∀ i ∈ l, cell b i ≠ 0) ∨
        (∃ j, j < 9 ∧ cell b j = 0 ∧ (aiLoop b l bv bm).2 = (j : Int) ∧
          (aiLoop b l bv bm).1 = aiVal b j)) := by
  intro l
  induction l with
  | nil =>
    intro bv bm _ hpre
    rcases hpre with ⟨hv, hm⟩ | ⟨j, hj, hc, hm, hv⟩
    · exact Or.inl ⟨hv ▸ rfl, hm ▸ rfl, fun i hi => absurd hi (List.not_mem_nil i)⟩
    · exact Or.inr ⟨j, hj, hc, hm, hv⟩
  | cons idx rest ih =>
    intro bv bm hsub hpre
    have hidx9 : idx < 9 := hsub idx (List.mem_cons_self idx rest)
    have hrest : ∀ i ∈ rest, i < 9 := fun i hi => hsub i (List.mem_cons_of_mem idx hi)
    by_cases hocc : cell b idx = 0
    · rw [aiLoop_play b rest bv bm hocc]
      by_cases hl : bv < aiVal b idx
      · rw [if_pos hl]
        by_cases h1 : aiVal b idx = 1
        · rw [if_pos h1]
          exact Or.inr ⟨idx, hidx9, hocc, rfl, rfl⟩
        · rw [if_neg h1]
          rcases ih (aiVal b idx) (idx : Int) hrest
              (Or.inr ⟨idx, hidx9, hocc, rfl, rfl⟩) with ⟨hv, hm, _⟩ | hpair
          · exact Or.inr ⟨idx, hidx9, hocc, hm, hv⟩
          · exact Or.inr hpair
      · rw [if_neg hl]
        rcases hpre with ⟨hv, _⟩ | ⟨j, hj, hc, hm, hv⟩
        · exact absurd (hv ▸ intMin_lt_aiVal b idx hlen) hl
        · rcases ih bv bm hrest (Or.inr ⟨j, hj, hc, hm, hv⟩) with ⟨hv', hm', _⟩ | hpair
          · exact Or.inr ⟨j, hj, hc, by rw [hm']; exact hm, by rw [hv']; exact hv⟩
          · exact Or.inr hpair
    · rw [aiLoop_skip b rest bv bm hocc]
      rcases ih bv bm hrest hpre with ⟨hv, hm, hall⟩ | hpair
      · refine Or.inl ⟨hv, hm, fun i hi => ?_⟩
        rcases List.mem_cons.mp hi with rfl | hi'
        · exact hocc
        · exact hall i hi'
      · exact Or.inr hpair

theorem negamaxF_eq_negamax (fuel : Nat) (b : Board) (side : Int) (hlen : b.length = 9)
    (hf : b.count 0 + 1 ≤ fuel) : NegamaxF fuel b side = Negamax b side :=
  negamaxF_fuel_stable fuel b 10 side hlen hf (by have := count_zero_le_nine b hlen; omega)

/-! ### Player-swap symmetry of the search -/

theorem swapCell_zero_iff (v : Nat) : swapCell v = 0 ↔ v = 0 := by
  simp only [swapCell]
  split_ifs <;> (try simp_all) <;> omega

theorem swapCell_inj (u v : Nat) : swapCell u = swapCell v ↔ u = v := by
  simp only [swapCell]
  split_ifs <;> (try simp_all) <;> omega

theorem cell_swapBoard (b : Board) (i : Nat) : cell (swapBoard b) i = swapCell (cell b i) := by
  induction b generalizing i with
  | nil => cases i <;> rfl
  | cons a bs ih =>
    cases i with
    | zero => rfl
    | succ j => exact ih j

theorem swapBoard_setCell (b : Board) (i v : Nat) :
    swapBoard (setCell b i v) = setCell (swapBoard b) i (swapCell v) := by
  simp [swapBoard, setCell, List.map_set]

theorem lineWinner_swap (b : Board) (l : Nat × Nat × Nat) :
    lineWinner (swapBoard b) l = swapCell (lineWinner b l) := by
  unfold lineWinner
  rw [cell_swapBoard, cell_swapBoard, cell_swapBoard]
  have hc : (swapCell (cell b l.1) ≠ 0 ∧ swapCell (cell b l.1) = swapCell (cell b l.2.1) ∧
        swapCell (cell b l.2.1) = swapCell (cell b l.2.2)) ↔
      (cell b l.1 ≠ 0 ∧ cell b l.1 = cell b l.2.1 ∧ cell b l.2.1 = cell b l.2.2) :=
    and_congr (not_congr (swapCell_zero_iff _))
      (and_congr (swapCell_inj _ _) (swapCell_inj _ _))
  by_cases h : cell b l.1 ≠ 0 ∧ cell b l.1 = cell b l.2.1 ∧ cell b l.2.1 = cell b l.2.2
  · rw [if_pos h, if_pos (hc.mpr h)]
  · rw [if_neg h, if_neg (fun hh => h (hc.mp hh))]
    rfl

theorem checkWinnerAux_swap (b : Board) :
    ∀ ls : List (Nat × Nat × Nat),
      checkWinnerAux (swapBoard b) ls = swapCell (checkWinnerAux b ls) := by
  intro ls
  induction ls with
  | nil => rfl
  | cons l ls ih =>
    rw [checkWinnerAux, checkWinnerAux, lineWinner_swap]
    by_cases h : lineWinner b l ≠ 0
    · have hsw : swapCell (lineWinner b l) ≠ 0 := fun hz => h ((swapCell_zero_iff _).mp hz)
      rw [if_pos h, if_pos hsw]
    · have h0 : lineWinner b l = 0 := not_not.mp h
      have hsw : ¬ swapCell (lineWinner b l) ≠ 0 :=
        fun hz => hz ((swapCell_zero_iff _).mpr h0)
      rw [if_neg h, if_neg hsw]
      exact ih

theorem checkWinnerRaw_swap (b : Board) :
    CheckWinnerRaw (swapBoard b) = swapCell (CheckWinnerRaw b) :=
  checkWinnerAux_swap b WINS

theorem checkWinnerSigned_swap (b : Board) :
    CheckWinnerSigned (swapBoard b) = - CheckWinnerSigned b := by
  unfold CheckWinnerSigned
  rw [checkWinnerRaw_swap]
  by_cases h1 : CheckWinnerRaw b = 1
  · rw [h1]; rfl
  · by_cases h2 : CheckWinnerRaw b = 2
    · rw [h2]; rfl
    · have hs1 : swapCell (CheckWinnerRaw b) ≠ 1 := by
        unfold swapCell; split_ifs <;> omega
      have hs2 : swapCell (CheckWinnerRaw b) ≠ 2 := by
        unfold swapCell; split_ifs <;> omega
      rw [if_neg h1, if_neg h2, if_neg hs1, if_neg hs2]
      rfl

theorem swapCell_bne_zero (v : Nat) : (swapCell v != 0) = (v != 0) := by
  by_cases hv : v = 0
  · subst hv; rfl
  · have h2 : swapCell v ≠ 0 := fun h => hv ((swapCell_zero_iff v).mp h)
    rw [Bool.eq_iff_iff, bne_iff_ne, bne_iff_ne]
    exact ⟨fun _ => hv, fun _ => h2⟩

theorem boardFull_swap (b : Board) : BoardFull (swapBoard b) = BoardFull b := by
  unfold BoardFull swapBoard
  rw [List.all_map]
  congr 1
  funext v
  exact swapCell_bne_zero v

theorem placed_swap (side : Int) (hside : side = 1 ∨ side = -1) :
    (if -side = 1 then 1 else 2) = swapCell (if side = 1 then 1 else 2) := by
  rcases hside with h | h <;> subst h <;> rfl

theorem negaLoop_swap (fuel : Nat)
    (ihf : ∀ (b : Board) (side : Int), side = 1 ∨ side = -1 →
      NegamaxF fuel (swapBoard b) (-side) = NegamaxF fuel b side)
    (b : Board) (side : Int) (hside : side = 1 ∨ side = -1) :
    ∀ (l : List Nat) (best : Int),
      negaLoop (NegamaxF fuel) (swapBoard b) (-side) l best
        = negaLoop (NegamaxF fuel) b side l best := by
  intro l
  induction l with
  | nil => intro best; rfl
  | cons idx rest ih =>
    intro best
    by_cases hocc : cell b idx = 0
    · have hocc' : cell (swapBoard b) idx = 0 := by
        rw [cell_swapBoard]; exact (swapCell_zero_iff _).mpr hocc
      rw [negaLoop_play _ _ _ rest best hocc', negaLoop_play _ _ _ rest best hocc]
      have hchild : NegamaxF fuel
            (setCell (swapBoard b) idx (if -side = 1 then 1 else 2)) (-(-side))
          = NegamaxF fuel (setCell b idx (if side = 1 then 1 else 2)) (-side) := by
        rw [placed_swap side hside, ← swapBoard_setCell]
        exact ihf (setCell b idx (if side = 1 then 1 else 2)) (-side)
          (by rcases hside with h | h <;> subst h
              · exact Or.inr rfl
              · exact Or.inl rfl)
      rw [hchild]
      set val := - NegamaxF fuel (setCell b idx (if side = 1 then 1 else 2)) (-side) with hv
      set best2 := if best < val then val else best with hb2
      by_cases h2 : best2 = 1
      · rw [if_pos h2, if_pos h2]
      · rw [if_neg h2, if_neg h2]; exact ih best2
    · have hocc' : cell (swapBoard b) idx ≠ 0 := by
        rw [cell_swapBoard]; exact fun hz => hocc ((swapCell_zero_iff _).mp hz)
      rw [negaLoop_skip _ _ _ rest best hocc', negaLoop_skip _ _ _ rest best hocc]
      exact ih best

theorem negamaxF_swap :
    ∀ (fuel : Nat) (b : Board) (side : Int), side = 1 ∨ side = -1 →
      NegamaxF fuel (swapBoard b) (-side) = NegamaxF fuel b side := by
  intro fuel
  induction fuel with
  | zero => intro b side _; rfl
  | succ n ih =>
    intro b side hside
    rw [NegamaxF, NegamaxF, checkWinnerSigned_swap, boardFull_swap]
    by_cases hsw : CheckWinnerSigned b ≠ 0
    · have hsw' : -CheckWinnerSigned b ≠ 0 := fun hz => hsw (neg_eq_zero.mp hz)
      rw [if_pos hsw', if_pos hsw]
      by_cases he : CheckWinnerSigned b = side
      · have he' : -CheckWinnerSigned b = -side := by rw [he]
        rw [if_pos he, if_pos he']
      · have he' : ¬ -CheckWinnerSigned b = -side := fun hh => he (neg_inj.mp hh)
        rw [if_neg he, if_neg he']
    · have h0 : CheckWinnerSigned b = 0 := not_not.mp hsw
      have hns : ¬ -CheckWinnerSigned b ≠ 0 := fun hz => hz (by rw [h0, neg_zero])
      have hns' : ¬ CheckWinnerSigned b ≠ 0 := fun hz => hz h0
      rw [if_neg hns, if_neg hns']
      by_cases hfull : BoardFull b
      · rw [if_pos hfull, if_pos hfull]
      · rw [if_neg hfull, if_neg hfull]
        exact negaLoop_swap n ih b side hside ORDER intMin

/-! ### Reachable boards: shape and the single-winner invariant -/

theorem reachable_basic {b : Board} {p : Nat} (h : Reachable b p) :
    b.length = 9 ∧ (p = 1 ∨ p = 2) := by
  induction h with
  | start => exact ⟨List.length_replicate 9 0, Or.inl rfl⟩
  | step hr hw hf hidx hc ih =>
    refine ⟨by rw [length_setCell]; exact ih.1, ?_⟩
    split
    · exact Or.inr rfl
    · exact Or.inl rfl

theorem winsFor_iff (b : Board) (p : Nat) :
    winsFor b p = true ↔
      ∃ l ∈ WINS, cell b l.1 = p ∧ cell b l.2.1 = p ∧ cell b l.2.2 = p := by
  simp [winsFor, List.any_eq_true, Bool.and_eq_true, beq_iff_eq, and_assoc]

theorem cell_setCell_preserved {b : Board} {i w v q : Nat} (hq : q ≠ v)
    (h : cell (setCell b i v) w = q) : cell b w = q := by
  rw [cell_setCell] at h
  split at h
  · exact absurd h.symm hq
  · exact h

theorem winsFor_setCell_other {b : Board} {i v q : Nat} (hq : q ≠ v)
    (h : winsFor (setCell b i v) q = true) : winsFor b q = true := by
  rcases (winsFor_iff _ _).mp h with ⟨l, hl, h1, h2, h3⟩
  exact (winsFor_iff _ _).mpr ⟨l, hl, cell_setCell_preserved hq h1,
    cell_setCell_preserved hq h2, cell_setCell_preserved hq h3⟩

theorem checkWinnerAux_ne_zero {b : Board} {q : Nat} (hq : q ≠ 0) :
    ∀ ls : List (Nat × Nat × Nat),
      (∃ l ∈ ls, cell b l.1 = q ∧ cell b l.2.1 = q ∧ cell b l.2.2 = q) →
      checkWinnerAux b ls ≠ 0 := by
  intro ls
  induction ls with
  | nil =>
    rintro ⟨l, hl, _⟩
    exact absurd hl (List.not_mem_nil l)
  | cons l ls ih =>
    rintro ⟨l', hl', hcells⟩
    rw [checkWinnerAux]
    by_cases h : lineWinner b l ≠ 0
    · rw [if_pos h]; exact h
    · rw [if_neg h]
      apply ih
      rcases List.mem_cons.mp hl' with rfl | hmem
      · exfalso
        apply h
        have hcond : cell b l'.1 ≠ 0 ∧ cell b l'.1 = cell b l'.2.1 ∧
            cell b l'.2.1 = cell b l'.2.2 := by
          rw [hcells.1, hcells.2.1, hcells.2.2]
          exact ⟨hq, rfl, rfl⟩
        show lineWinner b l' ≠ 0
        unfold lineWinner
        rw [if_pos hcond, hcells.1]
        exact hq
      · exact ⟨l', hmem, hcells⟩

theorem checkWinnerRaw_ne_zero_of_winsFor {b : Board} {q : Nat} (hq : q ≠ 0)
    (h : winsFor b q = true) : CheckWinnerRaw b ≠ 0 :=
  checkWinnerAux_ne_zero hq WINS ((winsFor_iff b q).mp h)

/-! ### The outcome scan as a first-match search -/

theorem lineMatch_iff (b : Board) (l : Nat × Nat × Nat) :
    lineMatch b l = true ↔
      (cell b l.1 ≠ 0 ∧ cell b l.1 = cell b l.2.1 ∧ cell b l.2.1 = cell b l.2.2) := by
  simp [lineMatch, Bool.and_eq_true, bne_iff_ne, beq_iff_eq, and_assoc]

theorem checkWinnerAux_eq_find (b : Board) :
    ∀ ls : List (Nat × Nat × Nat),
      checkWinnerAux b ls =
        (match ls.find? (lineMatch b) with
         | some l => cell b l.1
         | none => 0) := by
  intro ls
  induction ls with
  | nil => rfl
  | cons l ls ih =>
    rw [checkWinnerAux]
    by_cases hm : lineMatch b l = true
    · have hcond := (lineMatch_iff b l).mp hm
      have hlw : lineWinner b l = cell b l.1 := by
        unfold lineWinner; rw [if_pos hcond]
      have hne : lineWinner b l ≠ 0 := by rw [hlw]; exact hcond.1
      rw [if_pos hne, List.find?_cons, hm, hlw]
    · have h0 : lineWinner b l = 0 := by
        unfold lineWinner
        rw [if_neg (fun hc => hm ((lineMatch_iff b l).mpr hc))]
      have hm' : lineMatch b l = false := eq_false_of_ne_true hm
      rw [if_neg (fun hz => hz h0), List.find?_cons, hm']
      exact ih

theorem find?_some_lineMatch {b : Board} {l : Nat × Nat × Nat}
    (h : WINS.find? (lineMatch b) = some l) : cell b l.1 ≠ 0 :=
  ((lineMatch_iff b l).mp (List.find?_some h)).1

/-! ### The state-passing search restores the state -/

theorem negaLoopSt_skip (f : GameState → Int → Int × GameState) (side : Int)
    {idx : Nat} (rest : List Nat) (best : Int) (s : GameState)
    (h : cell s.board idx ≠ 0) :
    negaLoopSt f side (idx :: rest) best s = negaLoopSt f side rest best s := by
  rw [negaLoopSt, if_pos h]

theorem negaLoopSt_play (f : GameState → Int → Int × GameState) (side : Int)
    {idx : Nat} (rest : List Nat) (best : Int) (s : GameState)
    (h : cell s.board idx = 0) :
    negaLoopSt f side (idx :: rest) best s =
      (if (if best < -(f { s with board := setCell s.board idx (if side = 1 then 1 else 2) }
              (-side)).1
           then -(f { s with board := setCell s.board idx (if side = 1 then 1 else 2) }
              (-side)).1
           else best) = 1
       then ((if best < -(f { s with board := setCell s.board idx (if side = 1 then 1 else 2) }
                 (-side)).1
              then -(f { s with board := setCell s.board idx (if side = 1 then 1 else 2) }
                 (-side)).1
              else best),
             { (f { s with board := setCell s.board idx (if side = 1 then 1 else 2) }
                 (-side)).2 with
               board := setCell (f { s with
                   board := setCell s.board idx (if side = 1 then 1 else 2) } (-side)).2.board
                 idx 0 })
       else negaLoopSt f side rest
         (if best < -(f { s with board := setCell s.board idx (if side = 1 then 1 else 2) }
             (-side)).1
          then -(f { s with board := setCell s.board idx (if side = 1 then 1 else 2) }
             (-side)).1
          else best)
         { (f { s with board := setCell s.board idx (if side = 1 then 1 else 2) }
             (-side)).2 with
           board := setCell (f { s with
               board := setCell s.board idx (if side = 1 then 1 else 2) } (-side)).2.board
             idx 0 }) := by
  rw [negaLoopSt, if_neg (fun hne => hne h)]

theorem negaLoopSt_frame (fuel : Nat)
    (hf : ∀ (s : GameState) (side : Int),
      NegamaxStF fuel s side = (NegamaxF fuel s.board side, s))
    (side : Int) :
    ∀ (l : List Nat) (best : Int) (s : GameState),
      negaLoopSt (NegamaxStF fuel) side l best s
        = (negaLoop (NegamaxF fuel) s.board side l best, s) := by
  intro l
  induction l with
  | nil => intro best s; rfl
  | cons idx rest ih =>
    intro best s
    by_cases hocc : cell s.board idx = 0
    · rw [negaLoopSt_play _ side rest best s hocc, negaLoop_play _ _ side rest best hocc, hf]
      have hboard : setCell (setCell s.board idx (if side = 1 then 1 else 2)) idx 0
          = s.board := by
        rw [setCell, setCell, List.set_set]
        exact setCell_zero_self s.board idx hocc
      dsimp only []
      rw [hboard]
      set val := - NegamaxF fuel (setCell s.board idx (if side = 1 then 1 else 2)) (-side)
        with hval
      set best2 := if best < val then val else best with hb2
      by_cases h2 : best2 = 1
      · rw [if_pos h2, if_pos h2]
      · rw [if_neg h2, if_neg h2]
        exact ih best2 s
    · have hocc' : cell s.board idx ≠ 0 := hocc
      rw [negaLoopSt_skip _ side rest best s hocc', negaLoop_skip _ _ side rest best hocc']
      exact ih best s

theorem negamaxStF_frame : ∀ (fuel : Nat) (s : GameState) (side : Int),
    NegamaxStF fuel s side = (NegamaxF fuel s.board side, s) := by
  intro fuel
  induction fuel with
  | zero => intro s side; rfl
  | succ n ih =>
    intro s side
    rw [NegamaxStF, NegamaxF]
    by_cases hsw : CheckWinnerSigned s.board ≠ 0
    · rw [if_pos hsw, if_pos hsw]
    · rw [if_neg hsw, if_neg hsw]
      by_cases hfull : BoardFull s.board
      · rw [if_pos hfull, if_pos hfull]
      · rw [if_neg hfull, if_neg hfull]
        exact negaLoopSt_frame n ih side ORDER intMin s

/-! ## Claim theorems -/

/-- A concrete position reached by legal alternating play:
X plays 0, O plays 4, X plays 1; it is now O's turn. -/
theorem reachable_example : Reachable [1,1,0,0,2,0,0,0,0] 2 := by
  have h1 := @Reachable.step (List.replicate 9 0) 1 0 Reachable.start
    (by decide) (by decide) (by decide) (by decide)
  have h2 := @Reachable.step _ _ 4 h1 (by decide) (by decide) (by decide) (by decide)
  have h3 := @Reachable.step _ _ 1 h2 (by decide) (by decide) (by decide) (by decide)
  exact h3

/-- Claim C1: on every board reachable by legal alternating play with O to
move, if an empty cell exists and some empty cell leads to a position that is
not a forced loss for O under perfect play (the exhaustive negamax value for
X to move is at most 0), then the AI move selection returns an empty cell
whose resulting position is not a forced loss for O. -/
theorem ai_never_plays_losing_move {b : Board} (hreach : Reachable b 2)
    (hempty : ∃ i, i < 9 ∧ cell b i = 0)
    (hsafe : ∃ i, i < 9 ∧ cell b i = 0 ∧ NegamaxPlain (setCell b i 2) 1 ≤ 0) :
    ∃ j, j < 9 ∧ cell b j = 0 ∧ aiBestMove b = (j : Int) ∧
      NegamaxPlain (setCell b j 2) 1 ≠ 1 := by
  have hlen : b.length = 9 := (reachable_basic hreach).1
  obtain ⟨i0, hi0, hci0, hsafe0⟩ := hsafe
  have hplain_eq : ∀ i : Nat, Negamax (setCell b i 2) 1 = NegamaxPlain (setCell b i 2) 1 :=
    fun i => negamax_eq_negamaxPlain _ 1 (by rw [length_setCell, hlen])
  have hval0 : 0 ≤ aiVal b i0 := by
    unfold aiVal
    rw [hplain_eq i0]
    omega
  have hpair := aiLoop_pairing b hlen ORDER intMin (-1) ORDER_lt (Or.inl ⟨rfl, rfl⟩)
  rcases hpair with ⟨_, _, hall⟩ | ⟨j, hj9, hcj, hm, hv⟩
  · exact absurd hci0 (hall i0 (ORDER_mem i0 hi0))
  · have hdom : aiVal b i0 ≤ (aiLoop b ORDER intMin (-1)).1 :=
      aiLoop_fst_dominates b hlen ORDER intMin (-1) i0 (ORDER_mem i0 hi0) hci0
    rw [hv] at hdom
    have hvj : 0 ≤ aiVal b j := le_trans hval0 hdom
    have hne : NegamaxPlain (setCell b j 2) 1 ≠ 1 := by
      unfold aiVal at hvj
      rw [hplain_eq j] at hvj
      omega
    have hbm : aiBestMove b = (j : Int) := by
      show (if (aiLoop b ORDER intMin (-1)).2 = -1 then firstEmpty b
            else (aiLoop b ORDER intMin (-1)).2) = (j : Int)
      rw [hm, if_neg (by omega)]
    exact ⟨j, hj9, hcj, hbm, hne⟩

/-- Witness for C1: on the reachable board X X . / . O . / . . . with O to
move, blocking at cell 2 is not a forced loss, and the AI indeed selects an
empty, non-losing cell. -/
theorem ai_never_plays_losing_move_witness :
    (∃ i, i < 9 ∧ cell [1,1,0,0,2,0,0,0,0] i = 0) ∧
    (∃ i, i < 9 ∧ cell [1,1,0,0,2,0,0,0,0] i = 0 ∧
      NegamaxPlain (setCell [1,1,0,0,2,0,0,0,0] i 2) 1 ≤ 0) ∧
    (∃ j, j < 9 ∧ cell [1,1,0,0,2,0,0,0,0] j = 0 ∧
      aiBestMove [1,1,0,0,2,0,0,0,0] = (j : Int) ∧
      NegamaxPlain (setCell [1,1,0,0,2,0,0,0,0] j 2) 1 ≠ 1) :=
  ⟨⟨2, by decide, by decide⟩, ⟨2, by decide, by decide, by decide⟩,
   ai_never_plays_losing_move reachable_example ⟨2, by decide, by decide⟩
     ⟨2, by decide, by decide, by decide⟩⟩

/-- Claim C2 (counterexample): on the reachable board X X . / O O . / . . .
the negamax value is +1 for both sides to move (each side wins by playing
its open third cell first), so evaluate(board, +1) = -evaluate(board, -1)
fails on a fixed board. -/
theorem negamax_not_antisymmetric_on_same_board :
    ¬ (Negamax [1,1,0,2,2,0,0,0,0] 1 = - Negamax [1,1,0,2,2,0,0,0,0] (-1)) := by decide

/-- Claim C2 (amended): the negamax evaluation is antisymmetric only when the
side swap is applied to the board as well: for either side, the value with
the side argument negated on the player-swapped board equals the value of
the original board.  On the same board the negated-value form is false. -/
theorem negamax_antisymmetric_under_player_swap (b : Board) (side : Int)
    (hside : side = 1 ∨ side = -1) :
    Negamax (swapBoard b) (-side) = Negamax b side :=
  negamaxF_swap 10 b side hside

/-- Witness for the amended C2 at side +1 on a concrete board. -/
theorem negamax_antisymmetric_under_player_swap_witness :
    ((1 : Int) = 1 ∨ (1 : Int) = -1) ∧
    Negamax (swapBoard [1,1,0,2,2,0,0,0,0]) (-1) = Negamax [1,1,0,2,2,0,0,0,0] 1 :=
  ⟨Or.inl rfl,
   negamax_antisymmetric_under_player_swap [1,1,0,2,2,0,0,0,0] 1 (Or.inl rfl)⟩

theorem negamaxF_succ_terminal (fuel : Nat) (b : Board) (side : Int)
    (hsw : CheckWinnerSigned b ≠ 0) :
    NegamaxF (fuel+1) b side = (if CheckWinnerSigned b = side then 1 else -1) := by
  rw [NegamaxF, if_pos hsw]

theorem negamaxF_succ_draw (fuel : Nat) (b : Board) (side : Int)
    (hsw : CheckWinnerSigned b = 0) (hfull : BoardFull b = true) :
    NegamaxF (fuel+1) b side = 0 := by
  rw [NegamaxF, if_neg (fun hz => hz hsw), if_pos hfull]

/-- Claim C3: when the board has a signed winner, Negamax returns +1 if that
winner equals the side to move and -1 otherwise; when the board is full with
no signed winner it returns 0. -/
theorem negamax_terminal_values (b : Board) (side : Int) :
    (CheckWinnerSigned b ≠ 0 →
      Negamax b side = (if CheckWinnerSigned b = side then 1 else -1)) ∧
    (CheckWinnerSigned b = 0 → BoardFull b = true → Negamax b side = 0) :=
  ⟨fun hsw => negamaxF_succ_terminal 9 b side hsw,
   fun hsw hfull => negamaxF_succ_draw 9 b side hsw hfull⟩

/-- Witness for C3: a won board returns the terminal value and a full drawn
board returns 0. -/
theorem negamax_terminal_values_witness :
    CheckWinnerSigned [1,1,1,2,2,0,0,0,0] ≠ 0 ∧
    Negamax [1,1,1,2,2,0,0,0,0] 1
      = (if CheckWinnerSigned [1,1,1,2,2,0,0,0,0] = 1 then 1 else -1) ∧
    CheckWinnerSigned [1,2,1,1,2,2,2,1,1] = 0 ∧
    BoardFull [1,2,1,1,2,2,2,1,1] = true ∧
    Negamax [1,2,1,1,2,2,2,1,1] (-1) = 0 :=
  ⟨by decide, (negamax_terminal_values _ 1).1 (by decide), by decide, by decide,
   (negamax_terminal_values _ (-1)).2 (by decide) (by decide)⟩

/-- Claim C4: the negamax search with the fixed preference order and the
early exit on a +1 move computes exactly the same value as the exhaustive
negamax that visits all cells in natural index order with no early exit,
at every fuel level and for the full-depth wrappers. -/
theorem negamax_pruning_preserves_value (b : Board) (side : Int) (fuel : Nat)
    (hlen : b.length = 9) :
    NegamaxF fuel b side = NegamaxPlainF fuel b side ∧
    Negamax b side = NegamaxPlain b side :=
  ⟨negamaxF_eq_plainF fuel b side hlen, negamaxF_eq_plainF 10 b side hlen⟩

/-- Witness for C4 on a concrete 9-cell board. -/
theorem negamax_pruning_preserves_value_witness :
    ([1,1,0,0,2,0,0,0,2] : Board).length = 9 ∧
    (NegamaxF 6 [1,1,0,0,2,0,0,0,2] (-1) = NegamaxPlainF 6 [1,1,0,0,2,0,0,0,2] (-1) ∧
     Negamax [1,1,0,0,2,0,0,0,2] (-1) = NegamaxPlain [1,1,0,0,2,0,0,0,2] (-1)) :=
  ⟨by decide, negamax_pruning_preserves_value _ (-1) 6 (by decide)⟩

/-- Claim C5: on the board X X . / . O . / . . O with the AI to move, the
move selection returns index 2, and the committed AI move writes O there. -/
theorem ai_chooses_cell_two :
    aiBestMove [1,1,0,0,2,0,0,0,2] = 2 ∧
    (AIMove_Negamax ⟨[1,1,0,0,2,0,0,0,2], 2, false, 0⟩).board = [1,1,2,0,2,0,0,0,2] := by
  decide

/-- Claim C6: on every board reachable by legal alternating play, it is
impossible that both players own a completed winning triplet. -/
theorem reachable_single_winner {b : Board} {p : Nat} (h : Reachable b p) :
    ¬ (winsFor b 1 = true ∧ winsFor b 2 = true) := by
  induction h with
  | start => intro hboth; exact absurd hboth.1 (by decide)
  | step hr hw hf hidx hc ih =>
    intro hboth
    rcases (reachable_basic hr).2 with hp | hp
    · rw [hp] at hboth
      have h2 : winsFor _ 2 = true := winsFor_setCell_other (by decide) hboth.2
      exact checkWinnerRaw_ne_zero_of_winsFor (by decide) h2 hw
    · rw [hp] at hboth
      have h1 : winsFor _ 1 = true := winsFor_setCell_other (by decide) hboth.1
      exact checkWinnerRaw_ne_zero_of_winsFor (by decide) h1 hw

/-- Witness for C6 at a concrete reachable board. -/
theorem reachable_single_winner_witness :
    Reachable [1,1,0,0,2,0,0,0,0] 2 ∧
    ¬ (winsFor [1,1,0,0,2,0,0,0,0] 1 = true ∧ winsFor [1,1,0,0,2,0,0,0,0] 2 = true) :=
  ⟨reachable_example, reachable_single_winner reachable_example⟩

/-- Claim C7: the outcome computation returns a win for the owner of the
first fully-matching non-empty triplet in the fixed scan order, Draw when no
triplet matches and no empty cell remains, and InProgress otherwise; in
particular a full board with no winner is a Draw, never a Win. -/
theorem checkOutcome_first_match (b : Board) :
    checkOutcome b = checkOutcomeSpec b ∧
    (BoardFull b = true → CheckWinnerRaw b = 0 → checkOutcome b = Outcome.Draw) := by
  constructor
  · unfold checkOutcome checkOutcomeSpec CheckWinnerRaw
    rw [checkWinnerAux_eq_find b WINS]
    cases hf : WINS.find? (lineMatch b) with
    | none =>
      show (if (0 : Nat) ≠ 0 then Outcome.Win 0
            else if BoardFull b = true then Outcome.Draw else Outcome.InProgress)
          = (if (List.all b fun v => v != 0) = true then Outcome.Draw
             else Outcome.InProgress)
      rw [if_neg (fun hz => hz rfl)]
      rfl
    | some l =>
      show (if cell b l.1 ≠ 0 then Outcome.Win (cell b l.1)
            else if BoardFull b = true then Outcome.Draw else Outcome.InProgress)
          = Outcome.Win (cell b l.1)
      rw [if_pos (find?_some_lineMatch hf)]
  · intro hfull h0
    unfold checkOutcome
    rw [h0, if_neg (fun hz => hz rfl), if_pos hfull]

/-- Witness for C7: a full board with no three-in-a-row yields Draw. -/
theorem checkOutcome_first_match_witness :
    BoardFull [2,1,2,2,1,1,1,2,1] = true ∧ CheckWinnerRaw [2,1,2,2,1,1,1,2,1] = 0 ∧
    checkOutcome [2,1,2,2,1,1,1,2,1] = Outcome.Draw :=
  ⟨by decide, by decide, (checkOutcome_first_match _).2 (by decide) (by decide)⟩

/-- Claim C8: the negamax recursion bottoms out within one unit of fuel per
empty cell (its value is stable for every fuel bound above the number of
empty cells, which is exactly termination of the C++ recursion), and on a
board with an empty cell and no winner the AI candidate loop always records
a move, so the first-empty fallback is never needed. -/
theorem negamax_terminates_and_ai_always_moves (b : Board) (side : Int) (fuel : Nat)
    (hlen : b.length = 9) (hfuel : b.count 0 + 1 ≤ fuel)
    (hempty : ∃ i, i < 9 ∧ cell b i = 0) (hnotover : CheckWinnerRaw b = 0) :
    NegamaxF fuel b side = Negamax b side ∧
    (∃ j, j < 9 ∧ cell b j = 0 ∧ (aiLoop b ORDER intMin (-1)).2 = (j : Int)) ∧
    aiBestMove b = (aiLoop b ORDER intMin (-1)).2 := by
  obtain ⟨i0, hi0, hci0⟩ := hempty
  have hpair := aiLoop_pairing b hlen ORDER intMin (-1) ORDER_lt (Or.inl ⟨rfl, rfl⟩)
  rcases hpair with ⟨_, _, hall⟩ | ⟨j, hj9, hcj, hm, _⟩
  · exact absurd hci0 (hall i0 (ORDER_mem i0 hi0))
  · refine ⟨negamaxF_eq_negamax fuel b side hlen hfuel, ⟨j, hj9, hcj, hm⟩, ?_⟩
    show (if (aiLoop b ORDER intMin (-1)).2 = -1 then firstEmpty b
          else (aiLoop b ORDER intMin (-1)).2) = (aiLoop b ORDER intMin (-1)).2
    rw [hm, if_neg (by omega)]

/-- Witness for C8 at a concrete board with four empty cells. -/
theorem negamax_terminates_and_ai_always_moves_witness :
    ([1,1,0,0,2,0,0,0,2] : Board).length = 9 ∧
    ([1,1,0,0,2,0,0,0,2] : Board).count 0 + 1 ≤ 7 ∧
    CheckWinnerRaw [1,1,0,0,2,0,0,0,2] = 0 ∧
    (NegamaxF 7 [1,1,0,0,2,0,0,0,2] (-1) = Negamax [1,1,0,0,2,0,0,0,2] (-1) ∧
     (∃ j, j < 9 ∧ cell [1,1,0,0,2,0,0,0,2] j = 0 ∧
        (aiLoop [1,1,0,0,2,0,0,0,2] ORDER intMin (-1)).2 = (j : Int)) ∧
     aiBestMove [1,1,0,0,2,0,0,0,2] = (aiLoop [1,1,0,0,2,0,0,0,2] ORDER intMin (-1)).2) :=
  ⟨by decide, by decide, by decide,
   negamax_terminates_and_ai_always_moves _ (-1) 7 (by decide) (by decide)
     ⟨2, by decide, by decide⟩ (by decide)⟩

/-- Claim C9: the state-passing negamax returns the threaded game state
unchanged — every piece placed during the search is undone, and the turn
indicator, game-over flag and winner are untouched — and its value agrees
with the pure evaluation of the state's board. -/
theorem negamax_commits_nothing (fuel : Nat) (s : GameState) (side : Int) :
    (NegamaxStF fuel s side).2 = s ∧
    NegamaxSt s side = (Negamax s.board side, s) := by
  constructor
  · rw [negamaxStF_frame]
  · exact negamaxStF_frame 10 s side

/-- Claim C10: when the game-over flag is set, the AI move routine returns
immediately and leaves the whole game state unchanged. -/
theorem aimove_gameover_noop (s : GameState) (h : s.gameOver = true) :
    AIMove_Negamax s = s := by
  unfold AIMove_Negamax
  rw [if_pos h]

/-- Witness for C10 at a finished game state. -/
theorem aimove_gameover_noop_witness :
    ((⟨[1,1,1,2,2,0,0,0,0], 1, true, 1⟩ : GameState)).gameOver = true ∧
    AIMove_Negamax ⟨[1,1,1,2,2,0,0,0,0], 1, true, 1⟩
      = (⟨[1,1,1,2,2,0,0,0,0], 1, true, 1⟩ : GameState) :=
  ⟨rfl, aimove_gameover_noop _ rfl⟩

end ClassGame
